import Mathlib

/-!
Verification of the nonogram solver (`solver.py`) and its level-authoring
collaborator (`cret_lvl_gui.py`).

The Python code is shallowly embedded: strings become `List Char`, Python
lists become Lean lists, the tri-state board cell (`None`/`0`/`1`) becomes
`Option Nat`, and the wall-clock timeout poll in `backtrack` becomes an
arbitrary boolean oracle `tmo : Nat → Bool` consulted once per `backtrack`
entry (calling `solve` with `time_limit=None` corresponds to the constantly
false oracle).  Fallible code (`int(...)` raising `ValueError`, the GUI
parser returning `None`) is modelled with `Option`.
-/

namespace Nono

/-! ## Clue parsing (`solver.py: parse_clue_line`, `cret_lvl_gui.py: parse_clue_text`) -/

/-- Python whitespace characters, as used by `str.strip()` and `str.split()`. -/
def isSpaceChar (c : Char) : Bool :=
  c = ' ' || c = '\t' || c = '\n' || c = '\r' || c = '\x0b' || c = '\x0c'

/-- Python `s.lstrip()` on a character list. -/
def lstrip (l : List Char) : List Char := l.dropWhile isSpaceChar

/-- Python `s.rstrip()` on a character list. -/
def rstrip (l : List Char) : List Char := (l.reverse.dropWhile isSpaceChar).reverse

/-- Python `s.strip()` on a character list. -/
def pstrip (l : List Char) : List Char := rstrip (lstrip l)

/-- Numeric value of a decimal digit character. -/
def digitVal (c : Char) : Nat := c.toNat - '0'.toNat

/-- Python `int(token)` on the clue grammar's integer tokens: accepts a
nonempty all-decimal-digit token, fails (raises / returns failure) on
anything else, such as the empty token or a token with an internal space. -/
def pyInt (l : List Char) : Option Nat :=
  if !l.isEmpty && l.all Char.isDigit then
    some (l.foldl (fun a c => 10 * a + digitVal c) 0)
  else none

/-- Python `s.split(',')`: split at every comma, keeping empty chunks. -/
def splitComma : List Char → List (List Char)
  | [] => [[]]
  | c :: t =>
    if c = ',' then [] :: splitComma t
    else
      match splitComma t with
      | [] => [[c]]
      | h :: r => (c :: h) :: r

/-- Accumulator worker for Python `s.split()` (split on whitespace runs,
dropping empty chunks).  `acc` holds the current token, reversed. -/
def wsplitAux : List Char → List Char → List (List Char)
  | [], acc => if acc.isEmpty then [] else [acc.reverse]
  | c :: t, acc =>
    if isSpaceChar c then
      if acc.isEmpty then wsplitAux t [] else acc.reverse :: wsplitAux t []
    else wsplitAux t (c :: acc)

/-- Python `s.split()` with no argument: whitespace runs separate tokens. -/
def wsplit (l : List Char) : List (List Char) := wsplitAux l []

/-- Python `s.replace(',', ' ')`. -/
def replaceComma (l : List Char) : List Char :=
  l.map (fun c => if c = ',' then ' ' else c)

/-- The Python list comprehension `[int(p) for p in parts]`: convert every
token, failing as soon as one token fails. -/
def mapIntTokens : List (List Char) → Option (List Nat)
  | [] => some []
  | p :: t =>
    match pyInt p with
    | none => none
    | some v =>
      match mapIntTokens t with
      | none => none
      | some vs => some (v :: vs)

/-- `solver.py: parse_clue_line`: strip, empty means no clues, otherwise
replace commas by spaces, split on whitespace and convert every token with
`int`; a bad token raises, modelled as `none`. -/
def parse_clue_line (s : List Char) : Option (List Nat) :=
  let t := pstrip s
  if t.isEmpty then some []
  else mapIntTokens (wsplit (replaceComma t))

/-- `cret_lvl_gui.py: CreateLevelGUI.parse_clue_text`: strip, empty means no
clues, otherwise split on commas only, strip each part, drop parts that are
empty after stripping and convert the rest with `int`; a `ValueError`
returns `None`, modelled as `none`. -/
def parse_clue_text (s : List Char) : Option (List Nat) :=
  let t := pstrip s
  if t.isEmpty then some []
  else mapIntTokens (((splitComma t).map pstrip).filter (fun p => !p.isEmpty))

/-! ## Line possibility generation (`solver.py: line_possibilities`) -/

/-- Maximal run lengths of `1`s in a line, in order.  This is the
specification-side reading of a clue sequence: "each entry is a run of
filled cells; runs are separated by ≥1 empty cell in line order".
`cur` is the length of the run currently being read. -/
def runsAux : List Nat → Nat → List Nat
  | [], cur => if cur = 0 then [] else [cur]
  | x :: t, cur =>
    if x = 1 then runsAux t (cur + 1)
    else if cur = 0 then runsAux t 0
    else cur :: runsAux t 0

/-- Maximal run lengths of `1`s in a line. -/
def runs (l : List Nat) : List Nat := runsAux l 0

/-- The inner recursive `build` of `line_possibilities`.  `acc` is the
prefix built so far.  For the clue `k` currently being placed,
`max_pos = L - len(acc) - (sum(remaining clues) + gaps between them)`
extra leading empty cells may be inserted (Python computes this with
possibly negative integers, hence `Int` here); after the block a mandatory
single gap cell is appended unless it is the last block.  At the end the
line is padded with empty cells up to length `L`. -/
def lpBuild (L : Nat) : List Nat → List Nat → List (List Nat)
  | [], acc =>
    if acc.length ≤ L then [acc ++ List.replicate (L - acc.length) 0] else []
  | k :: rest, acc =>
    let maxPos : Int :=
      (L : Int) - (acc.length : Int) - ((k : Int) + (rest.sum : Int) + (rest.length : Int))
    if maxPos < 0 then []
    else
      (List.range (maxPos.toNat + 1)).flatMap (fun i =>
        lpBuild L rest
          (acc ++ List.replicate i 0 ++ List.replicate k 1 ++
            (if rest.isEmpty then [] else [0])))

/-- `solver.py: line_possibilities(length, clues)`: all binary lines of
length `L` realising the clue sequence.  An empty clue sequence gives the
single all-empty line; a clue sequence whose blocks and mandatory gaps do
not fit gives no possibilities; otherwise the recursive placement runs. -/
def line_possibilities (L : Nat) (clues : List Nat) : List (List Nat) :=
  if clues.isEmpty then [List.replicate L 0]
  else if L < clues.sum + (clues.length - 1) then []
  else lpBuild L clues []

/-! ## The solver (`solver.py: NonogramSolver`) -/

/-- Constructor data of `NonogramSolver`: the row and column clue lists. -/
structure Cfg where
  rowClues : List (List Nat)
  colClues : List (List Nat)

/-- Row count `self.R = len(row_clues)`. -/
def Cfg.R (cfg : Cfg) : Nat := cfg.rowClues.length

/-- Column count `self.C = len(col_clues)`. -/
def Cfg.C (cfg : Cfg) : Nat := cfg.colClues.length

/-- `self.row_poss`: per-row precomputed possibility lists. -/
def rowPossList (cfg : Cfg) : List (List (List Nat)) :=
  cfg.rowClues.map (fun rc => line_possibilities cfg.C rc)

/-- `self.col_poss`: per-column precomputed possibility lists. -/
def colPossList (cfg : Cfg) : List (List (List Nat)) :=
  cfg.colClues.map (fun cc => line_possibilities cfg.R cc)

/-- Possibility list of row `r`. -/
def rowPossAt (cfg : Cfg) (r : Nat) : List (List Nat) := (rowPossList cfg).getD r []

/-- Possibility list of column `c`. -/
def colPossAt (cfg : Cfg) (c : Nat) : List (List Nat) := (colPossList cfg).getD c []

/-- Stable insertion of `x` into an already key-sorted list: `x` goes after
every element whose key is `≤` its own, so elements with equal keys keep
their original relative order. -/
def stInsert (key : Nat → Nat) (x : Nat) : List Nat → List Nat
  | [] => [x]
  | y :: t => if key y ≤ key x then y :: stInsert key x t else x :: y :: t

/-- Stable sort by key (insertion sort).  A stable sort's output is uniquely
determined by the key, so this models Python's stable `sorted(..., key=...)`
exactly. -/
def stSort (key : Nat → Nat) (l : List Nat) : List Nat :=
  l.foldl (fun acc x => stInsert key x acc) []

/-- `self.row_order = sorted(range(R), key=possibility count)`. -/
def rowOrder (cfg : Cfg) : List Nat :=
  stSort (fun r => (rowPossAt cfg r).length) (List.range cfg.R)

/-- The board: `None` unknown, `0` empty, `1` filled. -/
abbrev Board : Type := List (List (Option Nat))

/-- Cell read `self.board[r][c]`. -/
def cellAt (b : Board) (r c : Nat) : Option Nat := (b.getD r []).getD c none

/-- Row read `self.board[r]`. -/
def rowAt (b : Board) (r : Nat) : List (Option Nat) := b.getD r []

/-- Whole-row write, as done by the candidate-application and undo loops
(`for c in range(C): board[r][c] = ...` over a full row). -/
def setRow (b : Board) (r : Nat) (row : List (Option Nat)) : Board := b.set r row

/-- `is_consistent_with_partial_row`: every already-fixed cell of row `r`
agrees with the candidate. -/
def rowConsistent (cfg : Cfg) (b : Board) (r : Nat) (cand : List Nat) : Bool :=
  (List.range cfg.C).all (fun c =>
    match cellAt b r c with
    | none => true
    | some v => v == cand.getD c 0)

/-- `col_candidate_compatible_with_partial_col`: every already-fixed cell of
column `c` agrees with the column candidate. -/
def colCompat (cfg : Cfg) (b : Board) (c : Nat) (cand : List Nat) : Bool :=
  (List.range cfg.R).all (fun r =>
    match cellAt b r c with
    | none => true
    | some v => v == cand.getD r 0)

/-- The per-candidate column pruning check: every column still has at least
one compatible precomputed possibility. -/
def colsOk (cfg : Cfg) (b : Board) : Bool :=
  (List.range cfg.C).all (fun c =>
    (colPossAt cfg c).any (fun cand => colCompat cfg b c cand))

/-- Mutable search state: the board, the node counter `self.nodes` and the
`tick` counter indexing the timeout polls (one per `backtrack` entry). -/
structure SState where
  board : Board
  nodes : Nat
  tick : Nat
deriving DecidableEq

/-- The candidate loop of `backtrack`: write the candidate into row `r`,
prune on columns, recurse through the continuation `bk` (the search over the
remaining rows); on failure restore the saved row unconditionally and move
to the next candidate. -/
def tryRow (cfg : Cfg) (bk : SState → Bool × SState) (r : Nat) :
    List (List Nat) → SState → Bool × SState
  | [], st => (false, st)
  | cand :: more, st =>
    let oldRow := rowAt st.board r
    let b1 := setRow st.board r (cand.map some)
    if colsOk cfg b1 then
      match bk ⟨b1, st.nodes, st.tick⟩ with
      | (true, st2) => (true, st2)
      | (false, st2) =>
        tryRow cfg bk r more ⟨setRow st2.board r oldRow, st2.nodes, st2.tick⟩
    else
      tryRow cfg bk r more ⟨setRow b1 r oldRow, st.nodes, st.tick⟩

/-- `backtrack(idx)` over the still-unassigned suffix `rem` of
`self.row_order`: poll the timeout, report success when no rows remain,
otherwise count a node, filter the current row's possibilities against the
partial row and try them in order. -/
def backtrack (cfg : Cfg) (tmo : Nat → Bool) : List Nat → SState → Bool × SState
  | [] => fun st =>
    let st1 : SState := ⟨st.board, st.nodes, st.tick + 1⟩
    if tmo st1.tick then (false, st1) else (true, st1)
  | r :: rest => fun st =>
    let st1 : SState := ⟨st.board, st.nodes, st.tick + 1⟩
    if tmo st1.tick then (false, st1)
    else
      let st2 : SState := ⟨st1.board, st1.nodes + 1, st1.tick⟩
      tryRow cfg (backtrack cfg tmo rest) r
        ((rowPossAt cfg r).filter (fun p => rowConsistent cfg st2.board r p)) st2

/-- `NonogramSolver.solve(time_limit, allow_partial, debug)`: reset the
diagnostic counters, in strict mode (`permissive = false`, Python
`allow_partial=False`) fail fast when some row or column has an empty
possibility list, otherwise run the backtracking search over the heuristic
row order. -/
def solve (cfg : Cfg) (tmo : Nat → Bool) (permissive : Bool) (st : SState) :
    Bool × SState :=
  let st0 : SState := ⟨st.board, 0, 0⟩
  if !permissive && (rowPossList cfg).any (fun p => p.isEmpty) then (false, st0)
  else if !permissive && (colPossList cfg).any (fun p => p.isEmpty) then (false, st0)
  else backtrack cfg tmo (rowOrder cfg) st0

/-- The constantly false timeout oracle: `solve(time_limit=None, ...)`. -/
def noTimeout : Nat → Bool := fun _ => false

/-- The all-unknown board built by `NonogramSolver.__init__`. -/
def initBoard (cfg : Cfg) : Board :=
  List.replicate cfg.R (List.replicate cfg.C (none : Option Nat))

/-- Search state of a freshly constructed solver. -/
def initState (cfg : Cfg) : SState := ⟨initBoard cfg, 0, 0⟩

/-- Column `c` of the board, read top to bottom. -/
def colAt (cfg : Cfg) (b : Board) (c : Nat) : List (Option Nat) :=
  (List.range cfg.R).map (fun r => cellAt b r c)

/-! ## Level persistence (`cret_lvl_gui.py: CreateLevelGUI.save_level`) -/

/-- A saved level: its row clues and its column clues. -/
structure LevelData where
  rows : List (List Nat)
  cols : List (List Nat)
deriving DecidableEq

/-- Python `data[name] = value` on a JSON-object dictionary: overwrite the
entry for an existing key in place, otherwise append a new entry. -/
def setKey : List (String × LevelData) → String → LevelData → List (String × LevelData)
  | [], n, v => [(n, v)]
  | (k, w) :: t, n, v =>
    if k = n then (n, v) :: t else (k, w) :: setKey t n v

/-- Key lookup in the persisted document. -/
def lookupKey : List (String × LevelData) → String → Option LevelData
  | [], _ => none
  | (k, w) :: t, n => if k = n then some w else lookupKey t n

/-- The merge step of `save_level`: load the pre-existing document if the
file exists and parses (`none` models a missing or unreadable file, which
the code replaces by the empty document), then set the saved name's entry
and write the result back. -/
def save_level_doc (pre : Option (List (String × LevelData))) (name : String)
    (rows cols : List (List Nat)) : List (String × LevelData) :=
  setKey (pre.getD []) name ⟨rows, cols⟩

/-! ## Specification-side notions -/

/-- A line is binary: every cell is `0` or `1`. -/
def BinaryLine (p : List Nat) : Prop := ∀ x ∈ p, x = 0 ∨ x = 1

/-- Column `c` of a plain (fully decided) grid with `R` rows. -/
def gridColAt (G : List (List Nat)) (R c : Nat) : List Nat :=
  (List.range R).map (fun r => (G.getD r []).getD c 0)

/-- Modelled from the spec: a grid satisfies the puzzle when it has the
right dimensions, is binary, and the maximal filled-run lengths of every
row and of every column are exactly that line's clue sequence. -/
def SolvesPuzzle (cfg : Cfg) (G : List (List Nat)) : Prop :=
  G.length = cfg.R ∧
  (∀ row ∈ G, row.length = cfg.C ∧ BinaryLine row) ∧
  (∀ r < cfg.R, runs (G.getD r []) = cfg.rowClues.getD r []) ∧
  (∀ c < cfg.C, runs (gridColAt G cfg.R c) = cfg.colClues.getD c [])

instance (p : List Nat) : Decidable (BinaryLine p) := by
  unfold BinaryLine
  infer_instance

instance (cfg : Cfg) (G : List (List Nat)) : Decidable (SolvesPuzzle cfg G) := by
  unfold SolvesPuzzle
  infer_instance

/-! ## General helper lemmas -/

/-- Writing back the row that is already there is a no-op. -/
theorem set_getD_self (b : List α) (r : Nat) (d : α) : b.set r (b.getD r d) = b := by
  induction b generalizing r with
  | nil => rfl
  | cons x t ih =>
    cases r with
    | zero => simp [List.getD]
    | succ n => simpa [List.getD] using ih n

/-- Undoing a row write restores the original board. -/
theorem setRow_undo (b : Board) (r : Nat) (row : List (Option Nat)) :
    setRow (setRow b r row) r (rowAt b r) = b := by
  simp only [setRow, rowAt, List.set_set]
  exact set_getD_self b r []

/-- Stable insertion permutes. -/
theorem stInsert_perm (key : Nat → Nat) (x : Nat) (l : List Nat) :
    List.Perm (stInsert key x l) (x :: l) := by
  induction l with
  | nil => simp [stInsert]
  | cons y t ih =>
    simp only [stInsert]
    split
    · exact (List.Perm.cons y ih).trans (List.Perm.swap x y t)
    · exact List.Perm.refl _

/-- Stable insertion sort permutes. -/
theorem stSort_perm_aux (key : Nat → Nat) :
    ∀ (l acc : List Nat),
      List.Perm (List.foldl (fun a x => stInsert key x a) acc l) (acc ++ l) := by
  intro l
  induction l with
  | nil => intro acc; simp
  | cons x t ih =>
    intro acc
    exact (ih (stInsert key x acc)).trans
      (((stInsert_perm key x acc).append_right t).trans List.perm_middle.symm)

/-- The sorted row order is a permutation of its input. -/
theorem stSort_perm (key : Nat → Nat) (l : List Nat) : List.Perm (stSort key l) l := by
  simpa using stSort_perm_aux key l []

/-- `row_order` is a permutation of the row indices. -/
theorem rowOrder_perm (cfg : Cfg) : List.Perm (rowOrder cfg) (List.range cfg.R) :=
  stSort_perm _ _

/-- The row possibility table has one entry per row. -/
theorem rowPossList_length (cfg : Cfg) : (rowPossList cfg).length = cfg.R := by
  simp [rowPossList, Cfg.R]

/-- The column possibility table has one entry per column. -/
theorem colPossList_length (cfg : Cfg) : (colPossList cfg).length = cfg.C := by
  simp [colPossList, Cfg.C]

/-! ## Board restoration on failure -/

/-- Candidate loop restoration: if every continuation call restores the
board on failure, so does the candidate loop. -/
theorem tryRow_false_board (cfg : Cfg) (bk : SState → Bool × SState)
    (hbk : ∀ st st2, bk st = (false, st2) → st2.board = st.board) (r : Nat) :
    ∀ (cands : List (List Nat)) (st st2 : SState),
      tryRow cfg bk r cands st = (false, st2) → st2.board = st.board := by
  intro cands
  induction cands with
  | nil =>
    intro st st2 h
    simp only [tryRow] at h
    cases h
    rfl
  | cons cand more ih =>
    intro st st2 h
    simp only [tryRow] at h
    split at h
    · rcases hb : bk ⟨setRow st.board r (cand.map some), st.nodes, st.tick⟩ with ⟨res, stb⟩
      rw [hb] at h
      cases res with
      | true => cases h
      | false =>
        have h1 := ih _ st2 h
        have h2 := hbk _ _ hb
        simp only [h1, h2, setRow_undo]
    · have h1 := ih _ st2 h
      simp only [h1, setRow_undo]

/-- Search restoration: whenever `backtrack` fails — timeout included — the
board is exactly as it was at entry, because every attempted row write is
undone on the way out. -/
theorem backtrack_false_board (cfg : Cfg) (tmo : Nat → Bool) :
    ∀ (rem : List Nat) (st st2 : SState),
      backtrack cfg tmo rem st = (false, st2) → st2.board = st.board := by
  intro rem
  induction rem with
  | nil =>
    intro st st2 h
    simp only [backtrack] at h
    split at h
    · cases h; rfl
    · cases h
  | cons r rest ih =>
    intro st st2 h
    simp only [backtrack] at h
    split at h
    · cases h; rfl
    · exact tryRow_false_board cfg _ ih r _
        ⟨st.board, st.nodes + 1, st.tick + 1⟩ st2 h

/-! ## Claim theorems (first batch) -/

/-- C10: whenever `solve` returns `False` — by the strict-mode static
check, by exhausting all candidates, or after a timeout — the board is
identical, cell for cell, to its state at entry to that `solve` call. -/
theorem C10_solve_false_restores_board (cfg : Cfg) (tmo : Nat → Bool)
    (permissive : Bool) (st st2 : SState)
    (h : solve cfg tmo permissive st = (false, st2)) : st2.board = st.board := by
  simp only [solve] at h
  split at h
  · cases h; rfl
  · split at h
    · cases h; rfl
    · exact backtrack_false_board cfg tmo (rowOrder cfg) ⟨st.board, 0, 0⟩ st2 h

/-- Unsatisfiable 1×1 puzzle used as the C10 witness input. -/
def cfgU : Cfg := ⟨[[1]], [[]]⟩

/-- C10 witness: on the unsatisfiable 1×1 puzzle (row clue `[1]`, column
clue `[]`), `solve` fails and the fresh board comes back untouched. -/
theorem C10_witness :
    (solve cfgU noTimeout true (initState cfgU)).2.board = (initState cfgU).board :=
  C10_solve_false_restores_board cfgU noTimeout true (initState cfgU)
    (solve cfgU noTimeout true (initState cfgU)).2 (by decide)

/-- C5: for every length `L`, `line_possibilities L []` is exactly the
one-element collection holding the all-zero line of length `L`. -/
theorem C5_empty_clues (L : Nat) :
    line_possibilities L [] = [List.replicate L 0] := by
  simp [line_possibilities]

/-- C4: if the clue blocks plus their mandatory gaps do not fit,
`line_possibilities` is empty. -/
theorem C4_unsat_line_empty (L : Nat) (c : List Nat)
    (h : c.sum + c.length - 1 > L) : line_possibilities L c = [] := by
  cases c with
  | nil => simp at h
  | cons k rest =>
    have hlt : L < (k :: rest).sum + ((k :: rest).length - 1) := by
      have h2 := h
      simp only [List.length_cons] at h2
      simp only [List.length_cons]
      omega
    rw [line_possibilities, if_neg (by simp), if_pos hlt]

/-- C4 witness: a length-3 line cannot hold a 5-block. -/
theorem C4_witness : [5].sum + [5].length - 1 > 3 ∧ line_possibilities 3 [5] = [] :=
  ⟨by decide, C4_unsat_line_empty 3 [5] (by decide)⟩

/-- C6: in strict mode (`allow_partial=False`), if some row or some column
has an empty precomputed possibility list, `solve` returns `False` with the
node counter equal to zero. -/
theorem C6_strict_fast_fail (cfg : Cfg) (tmo : Nat → Bool) (st : SState)
    (h : (∃ r < cfg.R, rowPossAt cfg r = []) ∨ (∃ c < cfg.C, colPossAt cfg c = [])) :
    (solve cfg tmo false st).1 = false ∧ (solve cfg tmo false st).2.nodes = 0 := by
  have hrow : ∀ r < cfg.R, rowPossAt cfg r = [] →
      ((rowPossList cfg).any (fun p => p.isEmpty)) = true := by
    intro r hr hempty
    rw [List.any_eq_true]
    refine ⟨rowPossAt cfg r, ?_, by simp [hempty]⟩
    have hlt : r < (rowPossList cfg).length := by rw [rowPossList_length]; exact hr
    rw [rowPossAt, List.getD_eq_getElem _ _ hlt]
    exact List.getElem_mem hlt
  have hcol : ∀ c < cfg.C, colPossAt cfg c = [] →
      ((colPossList cfg).any (fun p => p.isEmpty)) = true := by
    intro c hc hempty
    rw [List.any_eq_true]
    refine ⟨colPossAt cfg c, ?_, by simp [hempty]⟩
    have hlt : c < (colPossList cfg).length := by rw [colPossList_length]; exact hc
    rw [colPossAt, List.getD_eq_getElem _ _ hlt]
    exact List.getElem_mem hlt
  rcases h with ⟨r, hr, hre⟩ | ⟨c, hc, hce⟩
  · simp [solve, hrow r hr hre]
  · by_cases hra : ((rowPossList cfg).any (fun p => p.isEmpty)) = true
    · simp [solve, hra]
    · simp [solve, hra, hcol c hc hce]

/-- Strict-mode witness puzzle: a 1-cell-wide board whose row clue `[5]`
cannot fit. -/
def cfgFF : Cfg := ⟨[[5]], [[1]]⟩

/-- C6 witness: the strict-mode fast fail fires on `cfgFF`. -/
theorem C6_witness :
    ((∃ r < cfgFF.R, rowPossAt cfgFF r = []) ∨ (∃ c < cfgFF.C, colPossAt cfgFF c = [])) ∧
    (solve cfgFF noTimeout false (initState cfgFF)).1 = false ∧
    (solve cfgFF noTimeout false (initState cfgFF)).2.nodes = 0 :=
  ⟨by decide, C6_strict_fast_fail cfgFF noTimeout (initState cfgFF) (by decide)⟩

/-- Zero-row puzzle with an unsatisfiable column clue: `solve` succeeds
vacuously while column 0 matches none of its (zero) possibilities. -/
def cfgZeroRows : Cfg := ⟨[], [[1]]⟩

/-- C1 counterexample: on the zero-row puzzle with column clue `[1]`,
`solve` returns `True`, yet column 0 equals no element of its (empty)
precomputed possibility list, refuting the claim as stated. -/
theorem C1_counterexample :
    (solve cfgZeroRows noTimeout true (initState cfgZeroRows)).1 = true ∧
    ¬ (∀ c < cfgZeroRows.C, ∃ q ∈ colPossAt cfgZeroRows c,
        colAt cfgZeroRows ((solve cfgZeroRows noTimeout true (initState cfgZeroRows)).2.board) c
          = q.map some) := by decide

/-- C3 counterexample: the clue sequence `[0]` fits in a length-1 line
(`sum + len - 1 = 0 ≤ 1`), yet the generated possibility `[0]` has maximal
1-run lengths `[]`, not `[0]`, refuting the claim for nonnegative clues. -/
theorem C3_counterexample :
    [0].sum + [0].length - 1 ≤ 1 ∧
    ¬ (∀ p ∈ line_possibilities 1 [0], BinaryLine p ∧ p.length = 1 ∧ runs p = [0]) := by
  constructor
  · decide
  · intro h
    have hm : [0] ∈ line_possibilities 1 [0] := by decide
    have := (h [0] hm).2.2
    simp [runs, runsAux] at this

/-- C7 counterexample: for the nonnegative clue sequence `[0]` and length 1
the generator returns the all-zero line twice, so its elements are not
pairwise distinct. -/
theorem C7_counterexample : ¬ (line_possibilities 1 [0]).Nodup := by decide

/-- C8 counterexample: the whitespace-separated token string `"1 2"` parses
in the solver's parser but is rejected by the collaborator's comma-only
parser, refuting grammar agreement as stated. -/
theorem C8_counterexample :
    parse_clue_line ['1', ' ', '2'] = some [1, 2] ∧
    parse_clue_text ['1', ' ', '2'] = none := by decide

/-! ## Run-length computation lemmas -/

/-- A trailing block of empty cells contributes the pending run only. -/
theorem runsAux_replicate_zero (n cur : Nat) :
    runsAux (List.replicate n 0) cur = if cur = 0 then [] else [cur] := by
  induction n generalizing cur with
  | zero => simp [runsAux]
  | succ m ih =>
    have hm := ih 0
    simp only [if_pos rfl] at hm
    simp [List.replicate_succ, runsAux, hm]

/-- Leading empty cells with no pending run are skipped. -/
theorem runsAux_replicate_zero_append (n : Nat) (t : List Nat) :
    runsAux (List.replicate n 0 ++ t) 0 = runsAux t 0 := by
  induction n with
  | zero => rfl
  | succ m ih => simpa [List.replicate_succ, runsAux] using ih

/-- A block of `k` filled cells extends the pending run by `k`. -/
theorem runsAux_replicate_one_append (k : Nat) (t : List Nat) (cur : Nat) :
    runsAux (List.replicate k 1 ++ t) cur = runsAux t (cur + k) := by
  induction k generalizing cur with
  | zero => rfl
  | succ m ih =>
    have harith : cur + 1 + m = cur + (m + 1) := by omega
    simp [List.replicate_succ, runsAux, ih (cur + 1), harith]

/-- An accumulator is boundary-closed when appending anything after it
concatenates run lists.  Every prefix built by `lpBuild` that ends in an
empty cell (or is empty) is boundary-closed. -/
def RunsClosed (acc : List Nat) : Prop :=
  ∀ t, runsAux (acc ++ t) 0 = runsAux acc 0 ++ runsAux t 0

/-- The empty accumulator is boundary-closed. -/
theorem runsClosed_nil : RunsClosed [] := fun t => by simp [runsAux]

/-- Runs of a closed accumulator followed by a gap, a positive block and a
mandatory separating empty cell: the block's length is appended, and the
extended accumulator is closed again. -/
theorem runsClosed_step (acc : List Nat) (hacc : RunsClosed acc) (i k : Nat)
    (hk : 0 < k) :
    runsAux (acc ++ List.replicate i 0 ++ List.replicate k 1 ++ [0]) 0
      = runsAux acc 0 ++ [k] ∧
    RunsClosed (acc ++ List.replicate i 0 ++ List.replicate k 1 ++ [0]) := by
  have hval : ∀ t, runsAux (List.replicate i 0 ++ List.replicate k 1 ++ 0 :: t) 0
      = k :: runsAux t 0 := by
    intro t
    rw [List.append_assoc, runsAux_replicate_zero_append,
      runsAux_replicate_one_append]
    simp only [runsAux, Nat.zero_add]
    rw [if_neg (by omega), if_neg (by omega)]
  constructor
  · have h1 : acc ++ List.replicate i 0 ++ List.replicate k 1 ++ [0]
        = acc ++ (List.replicate i 0 ++ List.replicate k 1 ++ 0 :: []) := by
      simp [List.append_assoc]
    rw [h1, hacc _, hval []]
    simp [runsAux]
  · intro t
    have h1 : acc ++ List.replicate i 0 ++ List.replicate k 1 ++ [0] ++ t
        = acc ++ (List.replicate i 0 ++ List.replicate k 1 ++ 0 :: t) := by
      simp [List.append_assoc]
    have h2 : acc ++ List.replicate i 0 ++ List.replicate k 1 ++ [0]
        = acc ++ (List.replicate i 0 ++ List.replicate k 1 ++ 0 :: []) := by
      simp [List.append_assoc]
    rw [h1, hacc _, hval t, h2, hacc _, hval []]
    simp [runsAux]

/-- Runs of a closed accumulator followed by a gap, a positive final block
and trailing padding: the block's length is appended. -/
theorem runsClosed_last (acc : List Nat) (hacc : RunsClosed acc) (i k m : Nat)
    (hk : 0 < k) :
    runsAux (acc ++ List.replicate i 0 ++ List.replicate k 1 ++ List.replicate m 0) 0
      = runsAux acc 0 ++ [k] := by
  have h1 : acc ++ List.replicate i 0 ++ List.replicate k 1 ++ List.replicate m 0
      = acc ++ (List.replicate i 0 ++ (List.replicate k 1 ++ List.replicate m 0)) := by
    simp [List.append_assoc]
  rw [h1, hacc _, runsAux_replicate_zero_append, runsAux_replicate_one_append,
    runsAux_replicate_zero]
  rw [if_neg (by omega)]
  simp

/-! ## Generator soundness lemmas -/

/-- Every line built by `lpBuild` has length exactly `L`. -/
theorem lpBuild_length (L : Nat) :
    ∀ (clues acc : List Nat), ∀ p ∈ lpBuild L clues acc, p.length = L := by
  intro clues
  induction clues with
  | nil =>
    intro acc p hp
    simp only [lpBuild] at hp
    split at hp
    · rw [List.mem_singleton] at hp
      subst hp
      simp only [List.length_append, List.length_replicate]
      omega
    · cases hp
  | cons k rest ih =>
    intro acc p hp
    simp only [lpBuild] at hp
    split at hp
    · cases hp
    · rw [List.mem_flatMap] at hp
      rcases hp with ⟨i, _, hp⟩
      exact ih _ p hp

/-- Every line built by `lpBuild` from a binary accumulator is binary. -/
theorem lpBuild_binary (L : Nat) :
    ∀ (clues acc : List Nat), BinaryLine acc → ∀ p ∈ lpBuild L clues acc, BinaryLine p := by
  intro clues
  induction clues with
  | nil =>
    intro acc hacc p hp
    simp only [lpBuild] at hp
    split at hp
    · rw [List.mem_singleton] at hp
      subst hp
      intro x hx
      rcases List.mem_append.mp hx with hx | hx
      · exact hacc x hx
      · left; exact List.eq_of_mem_replicate hx
    · cases hp
  | cons k rest ih =>
    intro acc hacc p hp
    simp only [lpBuild] at hp
    split at hp
    · cases hp
    · rw [List.mem_flatMap] at hp
      rcases hp with ⟨i, _, hp⟩
      refine ih _ ?_ p hp
      intro x hx
      rcases List.mem_append.mp hx with hx | hx
      · rcases List.mem_append.mp hx with hx | hx
        · rcases List.mem_append.mp hx with hx | hx
          · exact hacc x hx
          · left; exact List.eq_of_mem_replicate hx
        · right; exact List.eq_of_mem_replicate hx
      · split at hx
        · cases hx
        · rw [List.mem_singleton] at hx
          left
          exact hx

/-- Every line built by `lpBuild` from a closed accumulator realises the
remaining clues: its run list is the accumulator's runs followed by the
clues, provided all clues are positive. -/
theorem lpBuild_runs (L : Nat) :
    ∀ (clues : List Nat), (∀ j ∈ clues, 0 < j) →
      ∀ (acc : List Nat), RunsClosed acc →
        ∀ p ∈ lpBuild L clues acc, runsAux p 0 = runsAux acc 0 ++ clues := by
  intro clues
  induction clues with
  | nil =>
    intro _ acc hacc p hp
    simp only [lpBuild] at hp
    split at hp
    · rw [List.mem_singleton] at hp
      subst hp
      rw [hacc _, runsAux_replicate_zero]
      simp
    · cases hp
  | cons k rest ih =>
    intro hpos acc hacc p hp
    have hk : 0 < k := hpos k (by simp)
    simp only [lpBuild] at hp
    split at hp
    · cases hp
    · rw [List.mem_flatMap] at hp
      rcases hp with ⟨i, _, hp⟩
      cases hr : rest with
      | nil =>
        subst hr
        simp only [List.isEmpty_nil, if_pos, List.append_nil] at hp
        simp only [lpBuild] at hp
        split at hp
        · rw [List.mem_singleton] at hp
          subst hp
          rw [runsClosed_last acc hacc i k _ hk]
        · cases hp
      | cons k2 rest2 =>
        subst hr
        simp only [List.isEmpty_cons, Bool.false_eq_true, if_false] at hp
        have hstep := runsClosed_step acc hacc i k hk
        have := ih (fun j hj => hpos j (by simp [hj])) _ hstep.2 p hp
        rw [this, hstep.1]
        simp

/-- C3 (amended to positive clue entries): for a positive clue sequence
that fits, every generated possibility is a binary line of length exactly
`L` whose maximal 1-run lengths are exactly the clue sequence — hence the
runs appear in order with at least one empty cell between them. -/
theorem C3_generator_sound (L : Nat) (c : List Nat) (hpos : ∀ k ∈ c, 0 < k)
    (hfit : c.sum + c.length - 1 ≤ L) :
    ∀ p ∈ line_possibilities L c, BinaryLine p ∧ p.length = L ∧ runs p = c := by
  intro p hp
  cases c with
  | nil =>
    simp only [line_possibilities, List.isEmpty_nil, if_pos, List.mem_singleton] at hp
    subst hp
    refine ⟨?_, by simp, ?_⟩
    · intro x hx
      left
      exact List.eq_of_mem_replicate hx
    · rw [runs, runsAux_replicate_zero]
      simp
  | cons k rest =>
    simp only [line_possibilities, List.isEmpty_cons, Bool.false_eq_true, if_false] at hp
    split at hp
    · cases hp
    · refine ⟨lpBuild_binary L _ [] (by intro x hx; cases hx) p hp,
        lpBuild_length L _ [] p hp, ?_⟩
      have := lpBuild_runs L _ hpos [] runsClosed_nil p hp
      rw [runs, this]
      rfl

/-- C3 witness: for clues `[2,1]` in a length-5 line, the generated
possibility `[1,1,0,1,0]` is binary, has length 5 and run lengths `[2,1]`. -/
theorem C3_witness :
    (∀ k ∈ [2, 1], 0 < k) ∧ [2, 1].sum + [2, 1].length - 1 ≤ 5 ∧
    [1, 1, 0, 1, 0] ∈ line_possibilities 5 [2, 1] ∧
    (BinaryLine [1, 1, 0, 1, 0] ∧ List.length [1, 1, 0, 1, 0] = 5 ∧
      runs [1, 1, 0, 1, 0] = [2, 1]) :=
  ⟨by decide, by decide, by decide,
    C3_generator_sound 5 [2, 1] (by decide) (by decide) [1, 1, 0, 1, 0] (by decide)⟩

/-! ## Generator distinctness lemmas -/

/-- Everything built by `lpBuild` extends the accumulator. -/
theorem lpBuild_prefix (L : Nat) :
    ∀ (clues acc : List Nat), ∀ p ∈ lpBuild L clues acc, ∃ t, p = acc ++ t := by
  intro clues
  induction clues with
  | nil =>
    intro acc p hp
    simp only [lpBuild] at hp
    split at hp
    · rw [List.mem_singleton] at hp
      exact ⟨_, hp⟩
    · cases hp
  | cons k rest ih =>
    intro acc p hp
    simp only [lpBuild] at hp
    split at hp
    · cases hp
    · rw [List.mem_flatMap] at hp
      rcases hp with ⟨i, _, hp⟩
      rcases ih _ p hp with ⟨t, ht⟩
      refine ⟨List.replicate i 0 ++ List.replicate k 1 ++
        (if rest.isEmpty then [] else [0]) ++ t, ?_⟩
      rw [ht]
      simp [List.append_assoc]

/-- Reading just after the accumulator and `i` leading empty cells of a
positive block hits a filled cell. -/
theorem getElemQ_block (acc : List Nat) (i k : Nat) (v : List Nat) (hk : 0 < k) :
    (acc ++ (List.replicate i 0 ++ (List.replicate k 1 ++ v)))[acc.length + i]? = some 1 := by
  rw [List.getElem?_append_right (by omega)]
  have h1 : acc.length + i - acc.length = i := by omega
  rw [h1, List.getElem?_append_right (by simp), List.length_replicate, Nat.sub_self,
    List.getElem?_append_left (by simpa using hk), List.getElem?_replicate]
  rw [if_pos hk]

/-- Reading inside a longer leading gap hits an empty cell. -/
theorem getElemQ_gap (acc : List Nat) (i j : Nat) (w : List Nat) (hij : i < j) :
    (acc ++ (List.replicate j 0 ++ w))[acc.length + i]? = some 0 := by
  rw [List.getElem?_append_right (by omega)]
  have h1 : acc.length + i - acc.length = i := by omega
  rw [h1, List.getElem?_append_left (by simpa using hij), List.getElem?_replicate]
  rw [if_pos hij]

/-- With positive clues, `lpBuild` never produces the same line twice:
different gap choices fix different first-filled positions, and the
recursive calls extend incompatible prefixes. -/
theorem lpBuild_nodup (L : Nat) :
    ∀ (clues : List Nat), (∀ j ∈ clues, 0 < j) →
      ∀ acc, (lpBuild L clues acc).Nodup := by
  intro clues
  induction clues with
  | nil =>
    intro _ acc
    simp only [lpBuild]
    split <;> simp
  | cons k rest ih =>
    intro hpos acc
    have hk : 0 < k := hpos k (by simp)
    simp only [lpBuild]
    split
    · simp
    · rw [List.nodup_flatMap]
      constructor
      · intro i _
        exact ih (fun j hj => hpos j (by simp [hj])) _
      · refine (List.pairwise_lt_range _).imp ?_
        intro i j hij p hpi hpj
        rcases lpBuild_prefix L _ _ p hpi with ⟨t1, ht1⟩
        rcases lpBuild_prefix L _ _ p hpj with ⟨t2, ht2⟩
        simp only [List.append_assoc] at ht1 ht2
        have h1 : p[acc.length + i]? = some 1 := by
          rw [ht1]
          exact getElemQ_block acc i k _ hk
        have h2 : p[acc.length + i]? = some 0 := by
          rw [ht2]
          exact getElemQ_gap acc i j _ hij
        rw [h1] at h2
        cases h2

/-- C7 (amended to positive clue entries): for every length `L` and every
positive clue sequence `c`, the elements of `line_possibilities L c` are
pairwise distinct. -/
theorem C7_nodup_of_positive (L : Nat) (c : List Nat) (hpos : ∀ k ∈ c, 0 < k) :
    (line_possibilities L c).Nodup := by
  rw [line_possibilities]
  split
  · simp
  · split
    · simp
    · exact lpBuild_nodup L c hpos []

/-- C7 witness: the possibilities for clues `[2,1]` in a length-5 line are
pairwise distinct. -/
theorem C7_witness :
    (∀ k ∈ [2, 1], 0 < k) ∧ (line_possibilities 5 [2, 1]).Nodup :=
  ⟨by decide, C7_nodup_of_positive 5 [2, 1] (by decide)⟩

/-! ## Level persistence lemmas -/

/-- Setting a key makes it map to the new value. -/
theorem lookupKey_setKey_self :
    ∀ (d : List (String × LevelData)) (n : String) (v : LevelData),
      lookupKey (setKey d n v) n = some v := by
  intro d
  induction d with
  | nil => intro n v; simp [setKey, lookupKey]
  | cons kv t ih =>
    intro n v
    rcases kv with ⟨k, w⟩
    simp only [setKey]
    split
    · simp [lookupKey]
    · simp only [lookupKey]
      rw [if_neg (by assumption)]
      exact ih n v

/-- Setting a key leaves every other key's value unchanged. -/
theorem lookupKey_setKey_other :
    ∀ (d : List (String × LevelData)) (n : String) (v : LevelData) (k2 : String),
      k2 ≠ n → lookupKey (setKey d n v) k2 = lookupKey d k2 := by
  intro d
  induction d with
  | nil =>
    intro n v k2 hne
    simp only [setKey, lookupKey]
    rw [if_neg (fun h => hne h.symm)]
  | cons kv t ih =>
    intro n v k2 hne
    rcases kv with ⟨k, w⟩
    simp only [setKey]
    split
    · rename_i hk
      simp only [lookupKey]
      have hkk2 : ¬ k = k2 := by
        intro h
        exact hne (h ▸ hk)
      rw [if_neg (fun h => hne h.symm), if_neg hkk2]
    · simp only [lookupKey]
      split
      · rfl
      · exact ih n v k2 hne

/-- C9: the document written by `save_level` maps the saved name to the new
rows/cols object, preserves every key of the pre-existing document with a
different name, and overwrites a pre-existing key of the same name. -/
theorem C9_save_level_merge (d : List (String × LevelData)) (name : String)
    (rows cols : List (List Nat)) (k : String) :
    lookupKey (save_level_doc (some d) name rows cols) name = some ⟨rows, cols⟩ ∧
    (k ≠ name → lookupKey (save_level_doc (some d) name rows cols) k = lookupKey d k) := by
  constructor
  · exact lookupKey_setKey_self d name ⟨rows, cols⟩
  · intro hne
    exact lookupKey_setKey_other d name ⟨rows, cols⟩ k hne

/-- Level names and payloads for the C9 witness. -/
def nmA : String := "alpha"

/-- Second level name for the C9 witness. -/
def nmB : String := "beta"

/-- Pre-existing level payload for the C9 witness. -/
def lvlOld : LevelData := ⟨[[1]], [[1]]⟩

/-- C9 witness: saving `beta` into a document holding `alpha` keeps `alpha`
and adds `beta`. -/
theorem C9_witness :
    lookupKey (save_level_doc (some [(nmA, lvlOld)]) nmB [[2]] [[2]]) nmB
        = some ⟨[[2]], [[2]]⟩ ∧
    lookupKey (save_level_doc (some [(nmA, lvlOld)]) nmB [[2]] [[2]]) nmA
        = lookupKey [(nmA, lvlOld)] nmA :=
  ⟨(C9_save_level_merge [(nmA, lvlOld)] nmB [[2]] [[2]] nmA).1,
    (C9_save_level_merge [(nmA, lvlOld)] nmB [[2]] [[2]] nmA).2 (by decide)⟩

/-! ## Board access lemmas -/

/-- Reading back a freshly written row. -/
theorem rowAt_setRow_self (b : Board) (r : Nat) (row : List (Option Nat))
    (hr : r < b.length) : rowAt (setRow b r row) r = row := by
  rw [rowAt, setRow, List.getD_eq_getElem _ _ (by simpa using hr)]
  exact List.getElem_set_self _

/-- Writing one row leaves the others unchanged. -/
theorem rowAt_setRow_ne (b : Board) (r q : Nat) (row : List (Option Nat))
    (h : q ≠ r) : rowAt (setRow b r row) q = rowAt b q := by
  rw [rowAt, rowAt, setRow]
  by_cases hq : q < b.length
  · rw [List.getD_eq_getElem _ _ (by simpa using hq), List.getD_eq_getElem _ _ hq]
    exact List.getElem_set_ne (fun hh => h hh.symm) _
  · rw [List.getD_eq_default _ _ (by simpa using Nat.le_of_not_lt hq),
      List.getD_eq_default _ _ (Nat.le_of_not_lt hq)]

/-- Boards with equal lengths and equal rows are equal. -/
theorem board_ext (b1 b2 : Board) (hl : b1.length = b2.length)
    (hr : ∀ q, rowAt b1 q = rowAt b2 q) : b1 = b2 := by
  apply List.ext_getElem hl
  intro n h1 h2
  have h3 := hr n
  rwa [rowAt, rowAt, List.getD_eq_getElem _ _ h1, List.getD_eq_getElem _ _ h2] at h3

/-- Projecting a mapped-`some` line at an in-bounds index. -/
theorem getD_map_some (p : List Nat) (c : Nat) (hc : c < p.length) :
    (p.map some).getD c none = some (p.getD c 0) := by
  rw [List.getD_eq_getElem _ _ (by simpa using hc), List.getD_eq_getElem _ _ hc,
    List.getElem_map]

/-! ## Possibility shape lemmas -/

/-- Every generated possibility has the line's length. -/
theorem line_possibilities_length (L : Nat) (c : List Nat) :
    ∀ p ∈ line_possibilities L c, p.length = L := by
  intro p hp
  rw [line_possibilities] at hp
  split at hp
  · rw [List.mem_singleton] at hp
    subst hp
    simp
  · split at hp
    · cases hp
    · exact lpBuild_length L c [] p hp

/-- Every generated possibility is binary. -/
theorem line_possibilities_binary (L : Nat) (c : List Nat) :
    ∀ p ∈ line_possibilities L c, BinaryLine p := by
  intro p hp
  rw [line_possibilities] at hp
  split at hp
  · rw [List.mem_singleton] at hp
    subst hp
    intro x hx
    left
    exact List.eq_of_mem_replicate hx
  · split at hp
    · cases hp
    · exact lpBuild_binary L c [] (by intro x hx; cases hx) p hp

/-- The row possibility table entry for a valid row index. -/
theorem rowPossAt_eq (cfg : Cfg) (r : Nat) (hr : r < cfg.R) :
    rowPossAt cfg r = line_possibilities cfg.C (cfg.rowClues.getD r []) := by
  have hr1 : r < cfg.rowClues.length := hr
  have hr2 : r < (cfg.rowClues.map (fun rc => line_possibilities cfg.C rc)).length := by
    simpa using hr1
  rw [rowPossAt, rowPossList, List.getD_eq_getElem _ _ hr2, List.getElem_map,
    List.getD_eq_getElem _ _ hr1]

/-- The column possibility table entry for a valid column index. -/
theorem colPossAt_eq (cfg : Cfg) (c : Nat) (hc : c < cfg.C) :
    colPossAt cfg c = line_possibilities cfg.R (cfg.colClues.getD c []) := by
  have hc1 : c < cfg.colClues.length := hc
  have hc2 : c < (cfg.colClues.map (fun cc => line_possibilities cfg.R cc)).length := by
    simpa using hc1
  rw [colPossAt, colPossList, List.getD_eq_getElem _ _ hc2, List.getElem_map,
    List.getD_eq_getElem _ _ hc1]

/-- Row possibilities have width `C`. -/
theorem rowPoss_length (cfg : Cfg) (r : Nat) (hr : r < cfg.R) :
    ∀ p ∈ rowPossAt cfg r, p.length = cfg.C := by
  rw [rowPossAt_eq cfg r hr]
  exact line_possibilities_length cfg.C _

/-- Row possibilities are binary. -/
theorem rowPoss_binary (cfg : Cfg) (r : Nat) (hr : r < cfg.R) :
    ∀ p ∈ rowPossAt cfg r, BinaryLine p := by
  rw [rowPossAt_eq cfg r hr]
  exact line_possibilities_binary cfg.C _

/-- Column possibilities have height `R`. -/
theorem colPoss_length (cfg : Cfg) (c : Nat) (hc : c < cfg.C) :
    ∀ q ∈ colPossAt cfg c, q.length = cfg.R := by
  rw [colPossAt_eq cfg c hc]
  exact line_possibilities_length cfg.R _

/-! ## Search success invariants -/

/-- What a successful `backtrack` run guarantees: the board keeps its
length, rows outside the remaining order are untouched, every remaining row
ends up equal to one of its precomputed possibilities, and (when at least
one row was assigned) the final board passed the column compatibility
check. -/
theorem backtrack_true_props (cfg : Cfg) (tmo : Nat → Bool) :
    ∀ (rem : List Nat), rem.Nodup →
      ∀ (st st2 : SState), (∀ r ∈ rem, r < st.board.length) →
        backtrack cfg tmo rem st = (true, st2) →
        st2.board.length = st.board.length ∧
        (∀ q, q ∉ rem → rowAt st2.board q = rowAt st.board q) ∧
        (∀ r ∈ rem, ∃ p ∈ rowPossAt cfg r, rowAt st2.board r = p.map some) ∧
        (rem ≠ [] → colsOk cfg st2.board = true) := by
  intro rem
  induction rem with
  | nil =>
    intro _ st st2 _ h
    simp only [backtrack] at h
    split at h
    · simp at h
    · simp only [Prod.mk.injEq] at h
      rcases h with ⟨-, h2⟩
      subst h2
      exact ⟨rfl, fun q _ => rfl, fun r hr => absurd hr (List.not_mem_nil r),
        fun hne => absurd rfl hne⟩
  | cons r rest ih =>
    intro hnd st st2 hb h
    have hndr : rest.Nodup := hnd.of_cons
    have hrnotin : r ∉ rest := (List.nodup_cons.mp hnd).1
    simp only [backtrack] at h
    split at h
    · simp at h
    · have htry : ∀ (cands : List (List Nat)),
          (∀ cand ∈ cands, cand ∈ rowPossAt cfg r) →
          ∀ (stA stB : SState), stA.board.length = st.board.length →
            tryRow cfg (backtrack cfg tmo rest) r cands stA = (true, stB) →
            stB.board.length = stA.board.length ∧
            (∀ q, q ∉ r :: rest → rowAt stB.board q = rowAt stA.board q) ∧
            (∀ rr ∈ r :: rest, ∃ p ∈ rowPossAt cfg rr, rowAt stB.board rr = p.map some) ∧
            colsOk cfg stB.board = true := by
        intro cands
        induction cands with
        | nil =>
          intro _ stA stB _ hh
          simp only [tryRow] at hh
          simp at hh
        | cons cand more ihc =>
          intro hsub stA stB hlenA hh
          simp only [tryRow] at hh
          split at hh
          · rename_i hok
            split at hh
            case _ stb hb2 =>
              simp only [Prod.mk.injEq] at hh
              rcases hh with ⟨-, hh2⟩
              subst hh2
              have hrlt : r < stA.board.length := by
                rw [hlenA]
                exact hb r (by simp)
              have hbw : ∀ rr ∈ rest,
                  rr < (setRow stA.board r (cand.map some)).length := by
                intro rr hrr
                rw [setRow, List.length_set, hlenA]
                exact hb rr (by simp [hrr])
              obtain ⟨hlen2, hout, hin, hcols⟩ :=
                ih hndr ⟨setRow stA.board r (cand.map some), stA.nodes, stA.tick⟩ stb hbw hb2
              have hlen2' : stb.board.length = (setRow stA.board r (cand.map some)).length :=
                hlen2
              have hout' : ∀ q, q ∉ rest →
                  rowAt stb.board q = rowAt (setRow stA.board r (cand.map some)) q := hout
              have hrowr : rowAt stb.board r = cand.map some := by
                rw [hout' r hrnotin]
                exact rowAt_setRow_self stA.board r (cand.map some) hrlt
              refine ⟨?_, ?_, ?_, ?_⟩
              · rw [hlen2', setRow, List.length_set]
              · intro q hq
                have hqr : q ≠ r := fun e => hq (by simp [e])
                have hqrest : q ∉ rest := fun e => hq (by simp [e])
                rw [hout' q hqrest, rowAt_setRow_ne _ _ _ _ hqr]
              · intro rr hrr
                rcases List.mem_cons.mp hrr with e | hrr2
                · subst e
                  exact ⟨cand, hsub cand (by simp), hrowr⟩
                · exact hin rr hrr2
              · cases hre : rest with
                | nil =>
                  have hbeq : stb.board = setRow stA.board r (cand.map some) := by
                    apply board_ext _ _ hlen2'
                    intro q
                    exact hout' q (by rw [hre]; exact List.not_mem_nil q)
                  rw [hbeq]
                  exact hok
                | cons a b2 =>
                  refine hcols ?_
                  rw [hre]
                  simp
            case _ stb hb2 =>
              have hrest : stb.board = setRow stA.board r (cand.map some) :=
                backtrack_false_board cfg tmo rest _ _ hb2
              rw [hrest, setRow_undo] at hh
              exact ihc (fun c2 h2 => hsub c2 (by simp [h2]))
                ⟨stA.board, stb.nodes, stb.tick⟩ stB hlenA hh
          · rw [setRow_undo] at hh
            exact ihc (fun c2 h2 => hsub c2 (by simp [h2]))
              ⟨stA.board, stA.nodes, stA.tick⟩ stB hlenA hh
      have hfit := htry
        ((rowPossAt cfg r).filter (fun p => rowConsistent cfg st.board r p))
        (fun cand h2 => List.mem_of_mem_filter h2)
        ⟨st.board, st.nodes + 1, st.tick + 1⟩ st2 rfl h
      exact ⟨hfit.1, hfit.2.1, hfit.2.2.1, fun _ => hfit.2.2.2⟩

/-- C1 (amended to puzzles with at least one row): whenever `solve` returns
`True` on a board of the right height, every cell is `0` or `1`, every
board row equals some element of that row's precomputed possibility list,
and every board column equals some element of that column's precomputed
possibility list.  (With zero rows the search succeeds vacuously and the
column part can fail, see the counterexample.) -/
theorem C1_solve_true_sound (cfg : Cfg) (tmo : Nat → Bool) (permissive : Bool)
    (st st2 : SState) (hlen : st.board.length = cfg.R) (hR : 0 < cfg.R)
    (h : solve cfg tmo permissive st = (true, st2)) :
    (∀ r < cfg.R, ∀ c < cfg.C,
      cellAt st2.board r c = some 0 ∨ cellAt st2.board r c = some 1) ∧
    (∀ r < cfg.R, ∃ p ∈ rowPossAt cfg r, rowAt st2.board r = p.map some) ∧
    (∀ c < cfg.C, ∃ q ∈ colPossAt cfg c, colAt cfg st2.board c = q.map some) := by
  simp only [solve] at h
  split at h
  · simp at h
  · split at h
    · simp at h
    · have hnd : (rowOrder cfg).Nodup :=
        (rowOrder_perm cfg).nodup_iff.mpr (List.nodup_range cfg.R)
      have hmem : ∀ r, r ∈ rowOrder cfg ↔ r < cfg.R := fun r => by
        rw [(rowOrder_perm cfg).mem_iff, List.mem_range]
      have hbounds : ∀ r ∈ rowOrder cfg,
          r < (⟨st.board, 0, 0⟩ : SState).board.length := by
        intro r hr
        show r < st.board.length
        rw [hlen]
        exact (hmem r).mp hr
      obtain ⟨hlen2, hout, hin, hcols⟩ :=
        backtrack_true_props cfg tmo (rowOrder cfg) hnd ⟨st.board, 0, 0⟩ st2 hbounds h
      have hone : rowOrder cfg ≠ [] := by
        intro e
        have hl := (rowOrder_perm cfg).length_eq
        rw [e] at hl
        simp at hl
        omega
      have hcolsOk := hcols hone
      have hrows : ∀ r < cfg.R, ∃ p ∈ rowPossAt cfg r, rowAt st2.board r = p.map some :=
        fun r hr => hin r ((hmem r).mpr hr)
      have hcells : ∀ r < cfg.R, ∀ c < cfg.C,
          cellAt st2.board r c = some 0 ∨ cellAt st2.board r c = some 1 := by
        intro r hr c hc
        obtain ⟨p, hp, he⟩ := hrows r hr
        have hplen : p.length = cfg.C := rowPoss_length cfg r hr p hp
        have hbin := rowPoss_binary cfg r hr p hp
        have hcp : c < p.length := by omega
        have hcv : cellAt st2.board r c = some (p.getD c 0) := by
          show (rowAt st2.board r).getD c none = _
          rw [he]
          exact getD_map_some p c hcp
        have hmemp : p.getD c 0 ∈ p := by
          rw [List.getD_eq_getElem _ _ hcp]
          exact List.getElem_mem hcp
        rcases hbin _ hmemp with h0 | h1
        · left; rw [hcv, h0]
        · right; rw [hcv, h1]
      refine ⟨hcells, hrows, ?_⟩
      intro c hc
      have hall := List.all_eq_true.mp hcolsOk c (List.mem_range.mpr hc)
      simp only [] at hall
      rw [List.any_eq_true] at hall
      rcases hall with ⟨cand, hcand, hcompat⟩
      refine ⟨cand, hcand, ?_⟩
      have hcandlen : cand.length = cfg.R := colPoss_length cfg c hc cand hcand
      apply List.ext_getElem
      · simp [colAt, hcandlen]
      · intro n h1 h2
        have hn : n < cfg.R := by simpa [colAt] using h1
        obtain ⟨v, hv⟩ : ∃ v, cellAt st2.board n c = some v := by
          rcases hcells n hn c hc with hcase | hcase
          · exact ⟨0, hcase⟩
          · exact ⟨1, hcase⟩
        have hcmp := List.all_eq_true.mp hcompat n (List.mem_range.mpr hn)
        rw [hv] at hcmp
        simp only [beq_iff_eq] at hcmp
        have hgoal1 : (colAt cfg st2.board c)[n] = cellAt st2.board n c := by
          simp [colAt]
        have hgoal2 : (cand.map some)[n] = some (cand.getD n 0) := by
          have hnc : n < cand.length := by omega
          rw [List.getElem_map, List.getD_eq_getElem _ _ hnc]
        rw [hgoal1, hgoal2, hv, hcmp]

/-- Solvable 1×1 puzzle used as the C1 witness input. -/
def cfgOne : Cfg := ⟨[[1]], [[1]]⟩

/-- C1 witness: on the 1×1 puzzle with clues `[1]`/`[1]`, `solve` succeeds
and the resulting board is fully decided, row-matching and column-matching. -/
theorem C1_witness :
    (∀ r < cfgOne.R, ∀ c < cfgOne.C,
      cellAt (solve cfgOne noTimeout true (initState cfgOne)).2.board r c = some 0 ∨
      cellAt (solve cfgOne noTimeout true (initState cfgOne)).2.board r c = some 1) ∧
    (∀ r < cfgOne.R, ∃ p ∈ rowPossAt cfgOne r,
      rowAt (solve cfgOne noTimeout true (initState cfgOne)).2.board r = p.map some) ∧
    (∀ c < cfgOne.C, ∃ q ∈ colPossAt cfgOne c,
      colAt cfgOne (solve cfgOne noTimeout true (initState cfgOne)).2.board c = q.map some) :=
  C1_solve_true_sound cfgOne noTimeout true (initState cfgOne)
    (solve cfgOne noTimeout true (initState cfgOne)).2 (by decide) (by decide) (by decide)

/-! ## Generator completeness: every line realising the clues is generated -/

/-- A run list needs at least its blocks plus separating gaps worth of
cells. -/
theorem runsAux_min_length :
    ∀ (t : List Nat) (cur : Nat) (cs : List Nat), runsAux t cur = cs →
      cs.sum + cs.length ≤ cur + t.length + 1 := by
  intro t
  induction t with
  | nil =>
    intro cur cs h
    simp only [runsAux] at h
    split at h
    · subst h; simp
    · subst h; simp
  | cons x t2 ih =>
    intro cur cs h
    simp only [runsAux] at h
    split at h
    · have := ih (cur + 1) cs h
      simp only [List.length_cons]
      omega
    · split at h
      · have := ih 0 cs h
        simp only [List.length_cons]
        omega
      · subst h
        have := ih 0 (runsAux t2 0) rfl
        simp only [List.sum_cons, List.length_cons]
        omega

/-- A pending positive run is never dropped. -/
theorem runsAux_ne_nil (t : List Nat) : ∀ (cur : Nat), 0 < cur → runsAux t cur ≠ [] := by
  induction t with
  | nil =>
    intro cur hcur
    simp only [runsAux]
    rw [if_neg (by omega)]
    simp
  | cons x t2 ih =>
    intro cur hcur
    simp only [runsAux]
    split
    · exact ih (cur + 1) (by omega)
    · rw [if_neg (by omega)]
      simp

/-- A binary line with no runs is all empty. -/
theorem binary_runs_nil (t : List Nat) (hbin : BinaryLine t) (h : runsAux t 0 = []) :
    t = List.replicate t.length 0 := by
  induction t with
  | nil => rfl
  | cons x t2 ih =>
    rcases hbin x (by simp) with h0 | h1
    · subst h0
      simp only [runsAux, if_neg (by omega : ¬(0 = 1)), if_pos rfl] at h
      rw [List.length_cons, List.replicate_succ]
      rw [← ih (fun y hy => hbin y (by simp [hy])) h]
    · subst h1
      simp only [runsAux, if_pos rfl] at h
      exact absurd h (runsAux_ne_nil t2 1 (by omega))

/-- Completing the current run: a binary line whose run list starts with
`k` while a positive run of `cur` cells is pending starts with `k - cur`
more filled cells, then ends or continues after an empty cell. -/
theorem runsAux_decomp_inrun :
    ∀ (t : List Nat) (cur k : Nat) (rest : List Nat), BinaryLine t → 0 < cur →
      runsAux t cur = k :: rest →
      cur ≤ k ∧ ∃ tail, t = List.replicate (k - cur) 1 ++ tail ∧
        ((tail = [] ∧ rest = []) ∨
          (∃ t2, tail = 0 :: t2 ∧ BinaryLine t2 ∧ runsAux t2 0 = rest)) := by
  intro t
  induction t with
  | nil =>
    intro cur k rest _ hcur h
    simp only [runsAux, if_neg (by omega : ¬(cur = 0))] at h
    simp only [List.cons.injEq] at h
    obtain ⟨rfl, h2⟩ := h
    subst h2
    exact ⟨le_refl _, [], by simp, Or.inl ⟨rfl, rfl⟩⟩
  | cons x t2 ih =>
    intro cur k rest hbin hcur h
    rcases hbin x (by simp) with h0 | h1
    · subst h0
      simp only [runsAux, if_neg (by omega : ¬(0 = 1)),
        if_neg (by omega : ¬(cur = 0)), List.cons.injEq] at h
      obtain ⟨rfl, hrest⟩ := h
      refine ⟨le_refl _, 0 :: t2, by simp, Or.inr ⟨t2, rfl, ?_, hrest⟩⟩
      intro y hy
      exact hbin y (by simp [hy])
    · subst h1
      simp only [runsAux, if_pos rfl] at h
      obtain ⟨hle, tail, ht, hres⟩ :=
        ih (cur + 1) k rest (fun y hy => hbin y (by simp [hy])) (by omega) h
      refine ⟨by omega, tail, ?_, hres⟩
      have hk : k - cur = (k - (cur + 1)) + 1 := by omega
      rw [hk]
      simp [List.replicate_succ, ht]

/-- First-block decomposition: a binary line whose run list is `k :: rest`
is some empty cells, then `k` filled cells, then either nothing or an empty
cell followed by a line realising `rest`. -/
theorem runsAux_decomp :
    ∀ (t : List Nat) (k : Nat) (rest : List Nat), BinaryLine t →
      runsAux t 0 = k :: rest →
      0 < k ∧ ∃ i tail, t = List.replicate i 0 ++ List.replicate k 1 ++ tail ∧
        ((tail = [] ∧ rest = []) ∨
          (∃ t2, tail = 0 :: t2 ∧ BinaryLine t2 ∧ runsAux t2 0 = rest)) := by
  intro t
  induction t with
  | nil =>
    intro k rest _ h
    simp [runsAux] at h
  | cons x t2 ih =>
    intro k rest hbin h
    rcases hbin x (by simp) with h0 | h1
    · subst h0
      simp only [runsAux, if_neg (by omega : ¬(0 = 1)), if_pos rfl] at h
      obtain ⟨hk, i, tail, ht, hres⟩ := ih k rest (fun y hy => hbin y (by simp [hy])) h
      refine ⟨hk, i + 1, tail, ?_, hres⟩
      simp [List.replicate_succ, ht]
    · subst h1
      simp only [runsAux, if_pos rfl] at h
      obtain ⟨hle, tail, ht, hres⟩ :=
        runsAux_decomp_inrun t2 1 k rest (fun y hy => hbin y (by simp [hy])) (by omega) h
      refine ⟨by omega, 0, tail, ?_, hres⟩
      have hk : k = (k - 1) + 1 := by omega
      rw [List.replicate_zero, List.nil_append, hk]
      simp [List.replicate_succ, ht]

/-- Build membership: a binary suffix realising the remaining clues, with
exactly the remaining space, is produced by `lpBuild`. -/
theorem lpBuild_complete (L : Nat) :
    ∀ (clues acc suffix : List Nat), BinaryLine suffix →
      runsAux suffix 0 = clues → acc.length + suffix.length = L →
      acc ++ suffix ∈ lpBuild L clues acc := by
  intro clues
  induction clues with
  | nil =>
    intro acc suffix hbin hruns hlen
    have hz := binary_runs_nil suffix hbin hruns
    simp only [lpBuild]
    rw [if_pos (by omega)]
    rw [List.mem_singleton, hz]
    have hm : L - acc.length = suffix.length := by omega
    rw [hm]
  | cons k rest ih =>
    intro acc suffix hbin hruns hlen
    obtain ⟨hk, i, tail, ht, hres⟩ := runsAux_decomp suffix k rest hbin hruns
    have hbintail : BinaryLine tail := by
      intro y hy
      exact hbin y (by rw [ht]; simp [hy])
    have hslen : suffix.length = i + k + tail.length := by
      rw [ht]
      simp only [List.length_append, List.length_replicate]
    have hbound : rest.sum + rest.length ≤ tail.length := by
      rcases hres with ⟨-, hre⟩ | ⟨t2, ht2, -, hr2⟩
      · subst hre; simp
      · have := runsAux_min_length t2 0 rest hr2
        rw [ht2]
        simp only [List.length_cons]
        omega
    simp only [lpBuild]
    rw [if_neg (by omega)]
    rw [List.mem_flatMap]
    refine ⟨i, ?_, ?_⟩
    · rw [List.mem_range]
      have hint : (i : Int) ≤ (L : Int) - (acc.length : Int) -
          ((k : Int) + (rest.sum : Int) + (rest.length : Int)) := by
        omega
      omega
    · cases hrest : rest with
      | nil =>
        subst hrest
        have htruns : runsAux tail 0 = [] := by
          rcases hres with ⟨hre, -⟩ | ⟨t2, ht2, -, hr2⟩
          · subst hre; rfl
          · rw [ht2]
            have h3 : runsAux (0 :: t2) 0 = runsAux t2 0 := by simp [runsAux]
            rw [h3, hr2]
        have hif : (if ([] : List Nat).isEmpty then ([] : List Nat) else [0]) = [] := rfl
        rw [hif, List.append_nil]
        have hm := ih (acc ++ List.replicate i 0 ++ List.replicate k 1) tail hbintail
          htruns
          (by simp only [List.length_append, List.length_replicate]; omega)
        have he : acc ++ List.replicate i 0 ++ List.replicate k 1 ++ tail = acc ++ suffix := by
          rw [ht]; simp [List.append_assoc]
        rw [he] at hm
        exact hm
      | cons k2 rest2 =>
        subst hrest
        obtain ⟨t2, ht2, hbin2, hr2⟩ :
            ∃ t2, tail = 0 :: t2 ∧ BinaryLine t2 ∧ runsAux t2 0 = k2 :: rest2 := by
          rcases hres with ⟨-, hre⟩ | h2
          · cases hre
          · exact h2
        have hif : (if (k2 :: rest2).isEmpty then ([] : List Nat) else [0]) = [0] := rfl
        rw [hif]
        have hm := ih (acc ++ List.replicate i 0 ++ List.replicate k 1 ++ [0]) t2 hbin2 hr2
          (by
            simp only [List.length_append, List.length_replicate, List.length_cons,
              List.length_nil]
            rw [ht2] at hslen
            simp only [List.length_cons] at hslen
            omega)
        have he : acc ++ List.replicate i 0 ++ List.replicate k 1 ++ [0] ++ t2
            = acc ++ suffix := by
          rw [ht, ht2]; simp [List.append_assoc]
        rw [he] at hm
        exact hm

/-- Generator completeness: every binary line of the right length whose
run lengths equal the clue sequence appears in `line_possibilities`. -/
theorem line_possibilities_complete (L : Nat) (c : List Nat) (p : List Nat)
    (hbin : BinaryLine p) (hlen : p.length = L) (hruns : runs p = c) :
    p ∈ line_possibilities L c := by
  cases c with
  | nil =>
    rw [line_possibilities]
    simp only [List.isEmpty_nil, if_pos, List.mem_singleton]
    have := binary_runs_nil p hbin hruns
    rw [this, hlen]
  | cons k rest =>
    have hmin := runsAux_min_length p 0 (k :: rest) hruns
    rw [line_possibilities]
    simp only [List.isEmpty_cons, Bool.false_eq_true, if_false]
    rw [if_neg (by simp only [List.length_cons, List.sum_cons] at hmin ⊢; omega)]
    have := lpBuild_complete L (k :: rest) [] p hbin hruns (by simpa using hlen)
    simpa using this

/-! ## Search completeness -/

/-- Partial boards that agree with a target grid wherever they are decided. -/
def Agrees (cfg : Cfg) (G : List (List Nat)) (b : Board) : Prop :=
  ∀ r < cfg.R, ∀ c < cfg.C,
    cellAt b r c = none ∨ cellAt b r c = some ((G.getD r []).getD c 0)

/-- Reading a grid column entry. -/
theorem gridColAt_getD (G : List (List Nat)) (R c r : Nat) (hr : r < R) :
    (gridColAt G R c).getD r 0 = (G.getD r []).getD c 0 := by
  rw [gridColAt, List.getD_eq_getElem _ _ (by simpa using hr), List.getElem_map,
    List.getElem_range]

/-- Cell reads after a same-row write. -/
theorem cellAt_setRow_self (b : Board) (r : Nat) (row : List (Option Nat)) (c : Nat)
    (hr : r < b.length) : cellAt (setRow b r row) r c = row.getD c none := by
  show (rowAt (setRow b r row) r).getD c none = _
  rw [rowAt_setRow_self b r row hr]

/-- Cell reads after an other-row write. -/
theorem cellAt_setRow_ne (b : Board) (r : Nat) (row : List (Option Nat)) (r2 c : Nat)
    (h : r2 ≠ r) : cellAt (setRow b r row) r2 c = cellAt b r2 c := by
  show (rowAt (setRow b r row) r2).getD c none = _
  rw [rowAt_setRow_ne b r r2 row h]
  rfl

/-- The fresh board is everywhere unknown. -/
theorem cellAt_init (cfg : Cfg) (r c : Nat) : cellAt (initBoard cfg) r c = none := by
  rw [cellAt, initBoard]
  have hrow : (List.replicate cfg.R (List.replicate cfg.C (none : Option Nat))).getD r []
      = if r < cfg.R then List.replicate cfg.C none else [] := by
    by_cases hr : r < cfg.R
    · rw [if_pos hr, List.getD_eq_getElem _ _ (by simpa using hr), List.getElem_replicate]
    · rw [if_neg hr, List.getD_eq_default _ _ (by simpa using Nat.le_of_not_lt hr)]
  rw [hrow]
  by_cases hr : r < cfg.R
  · rw [if_pos hr]
    by_cases hc : c < cfg.C
    · rw [List.getD_eq_getElem _ _ (by simpa using hc), List.getElem_replicate]
    · rw [List.getD_eq_default _ _ (by simpa using Nat.le_of_not_lt hc)]
  · rw [if_neg hr]
    rfl

/-- Writing the target grid's row into an agreeing board keeps agreement. -/
theorem agrees_setRow (cfg : Cfg) (G : List (List Nat)) (b : Board) (r : Nat)
    (hag : Agrees cfg G b) (hr : r < cfg.R) (hb : b.length = cfg.R)
    (hwid : (G.getD r []).length = cfg.C) :
    Agrees cfg G (setRow b r ((G.getD r []).map some)) := by
  intro r2 hr2 c hc
  by_cases he : r2 = r
  · subst he
    right
    rw [cellAt_setRow_self b r2 ((G.getD r2 []).map some) c (by omega)]
    exact getD_map_some (G.getD r2 []) c (by omega)
  · rw [cellAt_setRow_ne b r ((G.getD r []).map some) r2 c he]
    exact hag r2 hr2 c hc

/-- An agreeing board passes the per-row consistency filter against the
target grid's row. -/
theorem rowConsistent_of_agrees (cfg : Cfg) (G : List (List Nat)) (b : Board) (r : Nat)
    (hag : Agrees cfg G b) (hr : r < cfg.R) :
    rowConsistent cfg b r (G.getD r []) = true := by
  rw [rowConsistent, List.all_eq_true]
  intro c hcm
  have hc : c < cfg.C := List.mem_range.mp hcm
  rcases hag r hr c hc with hnone | hsome
  · rw [hnone]
  · rw [hsome]
    simp

/-- An agreeing board passes the column compatibility check: each column is
still compatible with the target grid's own column possibility. -/
theorem colsOk_of_agrees (cfg : Cfg) (G : List (List Nat)) (b : Board)
    (hGcol : ∀ c < cfg.C, gridColAt G cfg.R c ∈ colPossAt cfg c)
    (hag : Agrees cfg G b) : colsOk cfg b = true := by
  rw [colsOk, List.all_eq_true]
  intro c hcm
  have hc : c < cfg.C := List.mem_range.mp hcm
  rw [List.any_eq_true]
  refine ⟨gridColAt G cfg.R c, hGcol c hc, ?_⟩
  rw [colCompat, List.all_eq_true]
  intro r hrm
  have hr : r < cfg.R := List.mem_range.mp hrm
  rcases hag r hr c hc with hnone | hsome
  · rw [hnone]
  · rw [hsome, gridColAt_getD G cfg.R c r hr]
    simp

/-- Search completeness: with no time limit, from any board that agrees
with a solving grid, the backtracking search over any valid remaining row
order succeeds. -/
theorem backtrack_complete (cfg : Cfg) (G : List (List Nat))
    (hGrow : ∀ r < cfg.R, G.getD r [] ∈ rowPossAt cfg r)
    (hGcol : ∀ c < cfg.C, gridColAt G cfg.R c ∈ colPossAt cfg c) :
    ∀ rem : List Nat, (∀ r ∈ rem, r < cfg.R) →
      ∀ st : SState, st.board.length = cfg.R → Agrees cfg G st.board →
        (backtrack cfg noTimeout rem st).1 = true := by
  intro rem
  induction rem with
  | nil =>
    intro _ st _ _
    simp [backtrack, noTimeout]
  | cons r rest ih =>
    intro hbound st hblen hagree
    have hr : r < cfg.R := hbound r (by simp)
    have hwid : (G.getD r []).length = cfg.C :=
      rowPoss_length cfg r hr _ (hGrow r hr)
    have htry : ∀ (cands : List (List Nat)) (stA : SState),
        stA.board.length = cfg.R → Agrees cfg G stA.board →
        G.getD r [] ∈ cands →
        (tryRow cfg (backtrack cfg noTimeout rest) r cands stA).1 = true := by
      intro cands
      induction cands with
      | nil =>
        intro stA _ _ hmem
        cases hmem
      | cons cand more ihc =>
        intro stA hlenA hagA hmem
        simp only [tryRow]
        split
        · rename_i hok
          split
          case _ stb hb2 => rfl
          case _ stb hb2 =>
            rcases List.mem_cons.mp hmem with he | hmore
            · exfalso
              have hagw : Agrees cfg G (setRow stA.board r (cand.map some)) := by
                rw [← he]
                exact agrees_setRow cfg G stA.board r hagA hr hlenA hwid
              have := ih (fun r2 h2 => hbound r2 (by simp [h2]))
                ⟨setRow stA.board r (cand.map some), stA.nodes, stA.tick⟩
                (by show (setRow stA.board r (cand.map some)).length = cfg.R
                    rw [setRow, List.length_set, hlenA])
                hagw
              rw [hb2] at this
              cases this
            · have hrest : stb.board = setRow stA.board r (cand.map some) :=
                backtrack_false_board cfg noTimeout rest _ _ hb2
              rw [hrest, setRow_undo]
              exact ihc ⟨stA.board, stb.nodes, stb.tick⟩ hlenA hagA hmore
        · rename_i hok
          rcases List.mem_cons.mp hmem with he | hmore
          · exfalso
            apply hok
            have hagw : Agrees cfg G (setRow stA.board r (cand.map some)) := by
              rw [← he]
              exact agrees_setRow cfg G stA.board r hagA hr hlenA hwid
            exact colsOk_of_agrees cfg G _ hGcol hagw
          · rw [setRow_undo]
            exact ihc ⟨stA.board, stA.nodes, stA.tick⟩ hlenA hagA hmore
    simp only [backtrack, noTimeout, Bool.false_eq_true, if_false]
    apply htry _ ⟨st.board, st.nodes + 1, st.tick + 1⟩ hblen hagree
    rw [List.mem_filter]
    exact ⟨hGrow r hr, rowConsistent_of_agrees cfg G st.board r hagree hr⟩

/-- A solving grid's rows are generated row possibilities. -/
theorem solves_rows_mem (cfg : Cfg) (G : List (List Nat)) (hG : SolvesPuzzle cfg G) :
    ∀ r < cfg.R, G.getD r [] ∈ rowPossAt cfg r := by
  obtain ⟨hlen, hshape, hrows, -⟩ := hG
  intro r hr
  have hmem : G.getD r [] ∈ G := by
    rw [List.getD_eq_getElem _ _ (by omega)]
    exact List.getElem_mem (by omega)
  obtain ⟨hwid, hbin⟩ := hshape _ hmem
  rw [rowPossAt_eq cfg r hr]
  exact line_possibilities_complete cfg.C _ _ hbin hwid (hrows r hr)

/-- A solving grid's columns are generated column possibilities. -/
theorem solves_cols_mem (cfg : Cfg) (G : List (List Nat)) (hG : SolvesPuzzle cfg G) :
    ∀ c < cfg.C, gridColAt G cfg.R c ∈ colPossAt cfg c := by
  obtain ⟨hlen, hshape, -, hcols⟩ := hG
  intro c hc
  have hbin : BinaryLine (gridColAt G cfg.R c) := by
    intro x hx
    rw [gridColAt, List.mem_map] at hx
    obtain ⟨r, hrm, rfl⟩ := hx
    have hr : r < cfg.R := List.mem_range.mp hrm
    have hmem : G.getD r [] ∈ G := by
      rw [List.getD_eq_getElem _ _ (by omega)]
      exact List.getElem_mem (by omega)
    obtain ⟨hwid, hbinr⟩ := hshape _ hmem
    apply hbinr
    have hcg : c < (G.getD r []).length := by omega
    rw [List.getD_eq_getElem _ _ hcg]
    exact List.getElem_mem hcg
  rw [colPossAt_eq cfg c hc]
  exact line_possibilities_complete cfg.R _ _ hbin (by simp [gridColAt]) (hcols c hc)

/-- With a solving grid, no row or column possibility list is empty. -/
theorem solves_no_empty_poss (cfg : Cfg) (G : List (List Nat)) (hG : SolvesPuzzle cfg G) :
    ((rowPossList cfg).any (fun p => p.isEmpty)) = false ∧
    ((colPossList cfg).any (fun p => p.isEmpty)) = false := by
  constructor
  · rw [List.any_eq_false]
    intro x hx
    obtain ⟨j, hj, he⟩ := List.getElem_of_mem hx
    have hjR : j < cfg.R := by
      have := rowPossList_length cfg
      omega
    have hxe : x = rowPossAt cfg j := by
      rw [rowPossAt, List.getD_eq_getElem _ _ hj, he]
    have hmem := solves_rows_mem cfg G hG j hjR
    rw [← hxe] at hmem
    simp only [List.isEmpty_iff]
    intro hxnil
    rw [hxnil] at hmem
    cases hmem
  · rw [List.any_eq_false]
    intro x hx
    obtain ⟨j, hj, he⟩ := List.getElem_of_mem hx
    have hjC : j < cfg.C := by
      have := colPossList_length cfg
      omega
    have hxe : x = colPossAt cfg j := by
      rw [colPossAt, List.getD_eq_getElem _ _ hj, he]
    have hmem := solves_cols_mem cfg G hG j hjC
    rw [← hxe] at hmem
    simp only [List.isEmpty_iff]
    intro hxnil
    rw [hxnil] at hmem
    cases hmem

/-- C2: for every pair of clue lists admitting at least one solving grid,
`solve` with no time limit (the constantly false timeout oracle) on a
freshly constructed solver returns `True`.  Termination is inherent: the
embedded search is a total function. -/
theorem C2_solve_complete (cfg : Cfg) (permissive : Bool)
    (hex : ∃ G, SolvesPuzzle cfg G) :
    (solve cfg noTimeout permissive (initState cfg)).1 = true := by
  obtain ⟨G, hG⟩ := hex
  obtain ⟨hrowsany, hcolsany⟩ := solves_no_empty_poss cfg G hG
  rw [solve]
  rw [hrowsany, hcolsany]
  simp only [Bool.and_false, Bool.false_eq_true, if_false]
  apply backtrack_complete cfg G (solves_rows_mem cfg G hG) (solves_cols_mem cfg G hG)
  · intro r hrm
    exact List.mem_range.mp ((rowOrder_perm cfg).mem_iff.mp hrm)
  · show (initBoard cfg).length = cfg.R
    simp [initBoard]
  · intro r _ c _
    left
    exact cellAt_init cfg r c

/-- Solvable 2×2 puzzle for the C2 witness: one filled cell at the
top-left corner. -/
def cfgTwo : Cfg := ⟨[[1], []], [[1], []]⟩

/-- C2 witness: the 2×2 puzzle has the solving grid `[[1,0],[0,0]]` and
`solve` succeeds on it. -/
theorem C2_witness :
    SolvesPuzzle cfgTwo [[1, 0], [0, 0]] ∧
    (solve cfgTwo noTimeout true (initState cfgTwo)).1 = true :=
  ⟨by decide, C2_solve_complete cfgTwo true ⟨[[1, 0], [0, 0]], by decide⟩⟩

/-! ## Parser comparison -/

/-- Characters that separate tokens in `parse_clue_line`'s grammar after the
comma replacement: whitespace or comma. -/
def isSepChar (c : Char) : Bool := isSpaceChar c || c = ','

/-- Tokenisation of the original string by separator runs: this is what
splitting the comma-replaced string on whitespace computes. -/
def tokAux : List Char → List Char → List (List Char)
  | [], acc => if acc.isEmpty then [] else [acc.reverse]
  | c :: t, acc =>
    if isSepChar c then
      if acc.isEmpty then tokAux t [] else acc.reverse :: tokAux t []
    else tokAux t (c :: acc)

/-- The kept comma-parts of `parse_clue_text`: split on commas, strip,
drop empties. -/
def keptParts (u : List Char) : List (List Char) :=
  ((splitComma u).map pstrip).filter (fun p => !p.isEmpty)

/-- Splitting the comma-replaced string on whitespace is exactly
tokenisation by separator runs. -/
theorem wsplitAux_replaceComma (u : List Char) :
    ∀ acc, wsplitAux (replaceComma u) acc = tokAux u acc := by
  induction u with
  | nil => intro acc; rfl
  | cons c t ih =>
    intro acc
    have h1 : replaceComma (c :: t) = (if c = ',' then ' ' else c) :: replaceComma t := rfl
    rw [h1]
    by_cases hsep : isSepChar c = true
    · have hsp : isSpaceChar (if c = ',' then ' ' else c) = true := by
        by_cases hc : c = ','
        · rw [if_pos hc]; rfl
        · rw [if_neg hc]
          rw [isSepChar] at hsep
          simpa [hc] using hsep
      simp only [wsplitAux, tokAux, hsp, hsep, if_true]
      by_cases hacc : acc.isEmpty = true <;> simp [hacc, ih]
    · have hc : c ≠ ',' := by
        intro e
        rw [e] at hsep
        exact hsep rfl
      have hsp : isSpaceChar c = false := by
        rw [isSepChar] at hsep
        simp only [Bool.or_eq_true, not_or] at hsep
        cases h : isSpaceChar c
        · rfl
        · exact absurd h hsep.1
      rw [if_neg hc]
      simp only [wsplitAux, tokAux, hsp, Bool.false_eq_true, if_false]
      rw [if_neg (by rw [Bool.not_eq_true] at hsep; rw [hsep]; simp)]
      exact ih (c :: acc)

/-- Tokenisation distributes over a comma separator. -/
theorem tokAux_append_comma (b : List Char) :
    ∀ (a acc : List Char), tokAux (a ++ ',' :: b) acc = tokAux a acc ++ tokAux b [] := by
  intro a
  induction a with
  | nil =>
    intro acc
    have hsep : isSepChar ',' = true := rfl
    simp only [List.nil_append, tokAux, hsep, if_true]
    by_cases hacc : acc.isEmpty = true <;> simp [hacc]
  | cons x a2 ih =>
    intro acc
    simp only [List.cons_append, tokAux, List.append_eq]
    by_cases hx : isSepChar x = true
    · simp only [hx, if_true]
      by_cases hacc : acc.isEmpty = true <;> simp [hacc, ih]
    · simp only [hx, Bool.false_eq_true, if_false]
      exact ih (x :: acc)

/-- Splitting on commas distributes over the first comma. -/
theorem splitComma_append_comma (b : List Char) :
    ∀ (a : List Char), (∀ x ∈ a, x ≠ ',') →
      splitComma (a ++ ',' :: b) = a :: splitComma b := by
  intro a
  induction a with
  | nil => intro _; rfl
  | cons x a2 ih =>
    intro hnc
    have hx : x ≠ ',' := hnc x (by simp)
    have h2 := ih (fun y hy => hnc y (by simp [hy]))
    simp only [List.cons_append, splitComma, if_neg hx, List.append_eq, h2]

/-- A comma-free string is a single comma-part. -/
theorem splitComma_comma_free (a : List Char) (hnc : ∀ x ∈ a, x ≠ ',') :
    splitComma a = [a] := by
  induction a with
  | nil => rfl
  | cons x a2 ih =>
    have hx : x ≠ ',' := hnc x (by simp)
    simp only [splitComma, if_neg hx]
    rw [ih (fun y hy => hnc y (by simp [hy]))]

/-- Tokenising a pure separator run yields nothing. -/
theorem tokAux_all_sep (w : List Char) (hw : ∀ x ∈ w, isSepChar x = true) :
    tokAux w [] = [] := by
  induction w with
  | nil => rfl
  | cons x w2 ih =>
    simp only [tokAux, if_pos (hw x (by simp)), List.isEmpty_nil, if_pos]
    exact ih (fun y hy => hw y (by simp [hy]))

/-- A leading separator run is skipped. -/
theorem tokAux_skip_leading_seps (w : List Char) (hw : ∀ x ∈ w, isSepChar x = true) :
    ∀ v, tokAux (w ++ v) [] = tokAux v [] := by
  induction w with
  | nil => intro v; rfl
  | cons x w2 ih =>
    intro v
    simp only [List.cons_append, tokAux, if_pos (hw x (by simp)), List.isEmpty_nil, if_pos]
    exact ih (fun y hy => hw y (by simp [hy])) v

/-- A non-separator run is accumulated whole. -/
theorem tokAux_word (w : List Char) (hw : ∀ x ∈ w, isSepChar x = false) :
    ∀ (v acc : List Char), tokAux (w ++ v) acc = tokAux v (w.reverse ++ acc) := by
  induction w with
  | nil => intro v acc; rfl
  | cons x w2 ih =>
    intro v acc
    have hx : isSepChar x = false := hw x (by simp)
    simp only [List.cons_append, tokAux, List.append_eq, hx, Bool.false_eq_true, if_false]
    rw [ih (fun y hy => hw y (by simp [hy])) v (x :: acc)]
    simp

/-- A trailing separator run closes the pending token. -/
theorem tokAux_sep_close (w : List Char) (hw : ∀ x ∈ w, isSepChar x = true) :
    ∀ acc, acc ≠ [] → tokAux w acc = [acc.reverse] := by
  induction w with
  | nil =>
    intro acc hacc
    simp only [tokAux]
    rw [if_neg (by simpa [List.isEmpty_iff] using hacc)]
  | cons x w2 ih =>
    intro acc hacc
    simp only [tokAux, if_pos (hw x (by simp))]
    rw [if_neg (by simpa [List.isEmpty_iff] using hacc)]
    rw [tokAux_all_sep w2 (fun y hy => hw y (by simp [hy]))]

/-- Digits are not separators. -/
theorem digit_not_sep (c : Char) (hd : c.isDigit = true) : isSepChar c = false := by
  by_contra hcon
  rw [Bool.not_eq_false, isSepChar, isSpaceChar] at hcon
  simp only [Bool.or_eq_true, decide_eq_true_eq] at hcon
  rcases hcon with (((((h | h) | h) | h) | h) | h) | h <;>
    (subst h; exact absurd hd (by decide))

/-- Every string splits as leading spaces, its strip, trailing spaces. -/
theorem pstrip_decomp (a : List Char) :
    ∃ pre post, a = pre ++ pstrip a ++ post ∧
      (∀ x ∈ pre, isSpaceChar x = true) ∧ (∀ x ∈ post, isSpaceChar x = true) := by
  have h1 : a = List.takeWhile isSpaceChar a ++ lstrip a :=
    (List.takeWhile_append_dropWhile isSpaceChar a).symm
  have h2 : (lstrip a).reverse
      = List.takeWhile isSpaceChar (lstrip a).reverse ++
        List.dropWhile isSpaceChar (lstrip a).reverse :=
    (List.takeWhile_append_dropWhile isSpaceChar (lstrip a).reverse).symm
  have h3 : lstrip a = rstrip (lstrip a) ++
      (List.takeWhile isSpaceChar (lstrip a).reverse).reverse := by
    conv_lhs => rw [← List.reverse_reverse (lstrip a), h2]
    rw [List.reverse_append, rstrip]
  refine ⟨List.takeWhile isSpaceChar a,
    (List.takeWhile isSpaceChar (lstrip a).reverse).reverse, ?_, ?_, ?_⟩
  · conv_lhs => rw [h1, h3]
    simp only [pstrip, List.append_assoc]
  · intro x hx
    exact List.mem_takeWhile_imp hx
  · intro x hx
    rw [List.mem_reverse] at hx
    exact List.mem_takeWhile_imp hx

/-- Tokenising a comma-free string yields exactly its kept comma-part. -/
theorem tokAux_comma_free (a : List Char) (hnc : ∀ x ∈ a, x ≠ ',')
    (hdig : (pstrip a).isEmpty = false → (pstrip a).all Char.isDigit = true) :
    tokAux a [] = keptParts a := by
  obtain ⟨pre, post, hdeco, hpre, hpost⟩ := pstrip_decomp a
  have hkept : keptParts a = if (pstrip a).isEmpty then [] else [pstrip a] := by
    rw [keptParts, splitComma_comma_free a hnc]
    simp only [List.map_cons, List.map_nil, List.filter_cons, List.filter_nil]
    cases hg : (pstrip a).isEmpty <;> simp [hg]
  by_cases hng : (pstrip a).isEmpty = true
  · rw [hkept, if_pos hng]
    rw [List.isEmpty_iff] at hng
    rw [hdeco, hng, List.append_nil]
    apply tokAux_all_sep
    intro x hx
    rcases List.mem_append.mp hx with hx | hx
    · rw [isSepChar, hpre x hx]; rfl
    · rw [isSepChar, hpost x hx]; rfl
  · have hng2 : (pstrip a).isEmpty = false := by
      cases h : (pstrip a).isEmpty
      · rfl
      · exact absurd h hng
    have halldig := hdig hng2
    rw [List.all_eq_true] at halldig
    have hnosep : ∀ x ∈ pstrip a, isSepChar x = false := fun x hx =>
      digit_not_sep x (halldig x hx)
    rw [hkept, if_neg hng]
    conv_lhs => rw [hdeco, List.append_assoc]
    rw [tokAux_skip_leading_seps pre (fun x hx => by rw [isSepChar, hpre x hx]; rfl)]
    rw [tokAux_word (pstrip a) hnosep post []]
    rw [tokAux_sep_close post (fun x hx => by rw [isSepChar, hpost x hx]; rfl)]
    · rw [List.append_nil, List.reverse_reverse]
    · rw [List.append_nil]
      intro he
      have h5 : pstrip a = [] := by
        have h6 := congrArg List.reverse he
        rwa [List.reverse_reverse, List.reverse_nil] at h6
      rw [h5] at hng2
      cases hng2

/-- Every string is comma-free or splits at its first comma. -/
theorem comma_decomp (u : List Char) :
    (∀ x ∈ u, x ≠ ',') ∨
    ∃ a b, u = a ++ ',' :: b ∧ (∀ x ∈ a, x ≠ ',') := by
  induction u with
  | nil => left; intro x hx; cases hx
  | cons c t ih =>
    by_cases hc : c = ','
    · subst hc
      right
      exact ⟨[], t, rfl, fun x hx => by cases hx⟩
    · rcases ih with h | ⟨a, b, hab, hnc⟩
      · left
        intro x hx
        rcases List.mem_cons.mp hx with rfl | hx2
        · exact hc
        · exact h x hx2
      · right
        refine ⟨c :: a, b, by rw [hab]; rfl, ?_⟩
        intro x hx
        rcases List.mem_cons.mp hx with rfl | hx2
        · exact hc
        · exact hnc x hx2

/-- Tokenisation by separator runs agrees with the kept comma-parts
whenever every kept part is a digit token. -/
theorem tokAux_eq_keptParts :
    ∀ (n : Nat) (u : List Char), u.length ≤ n →
      (∀ p ∈ keptParts u, p.all Char.isDigit = true) →
      tokAux u [] = keptParts u := by
  intro n
  induction n with
  | zero =>
    intro u hu hdig
    have : u = [] := List.eq_nil_of_length_eq_zero (by omega)
    subst this
    rfl
  | succ m ih =>
    intro u hu hdig
    rcases comma_decomp u with hfree | ⟨a, b, hab, hnc⟩
    · apply tokAux_comma_free u hfree
      intro hne
      apply hdig
      rw [keptParts, splitComma_comma_free u hfree]
      simp [List.filter_cons, hne]
    · subst hab
      have hsplitc := splitComma_append_comma b a hnc
      have hka : keptParts a = List.filter (fun p => !p.isEmpty) [pstrip a] := by
        rw [keptParts, splitComma_comma_free a hnc]
        rfl
      have hkept : keptParts (a ++ ',' :: b) = keptParts a ++ keptParts b := by
        rw [keptParts, hsplitc, List.map_cons, ← List.singleton_append,
          List.filter_append, ← hka]
        rfl
      rw [tokAux_append_comma b a []]
      rw [hkept]
      have hda : ∀ p ∈ keptParts a, p.all Char.isDigit = true := by
        intro p hp
        apply hdig
        rw [hkept]
        exact List.mem_append.mpr (Or.inl hp)
      have hdb : ∀ p ∈ keptParts b, p.all Char.isDigit = true := by
        intro p hp
        apply hdig
        rw [hkept]
        exact List.mem_append.mpr (Or.inr hp)
      have hta : tokAux a [] = keptParts a := by
        apply tokAux_comma_free a hnc
        intro hne
        apply hda
        rw [keptParts, splitComma_comma_free a hnc]
        simp [List.filter_cons, hne]
      have htb : tokAux b [] = keptParts b := by
        apply ih b (by simp at hu; omega) hdb
      rw [hta, htb]

/-- Successful `int` conversion means a nonempty digit token. -/
theorem pyInt_some (p : List Char) (v : Nat) (h : pyInt p = some v) :
    p.isEmpty = false ∧ p.all Char.isDigit = true := by
  rw [pyInt] at h
  split at h
  · rename_i hcond
    rw [Bool.and_eq_true] at hcond
    exact ⟨by simpa using hcond.1, hcond.2⟩
  · cases h

/-- If the whole token list converts, every token converts. -/
theorem mapIntTokens_some :
    ∀ (parts : List (List Char)) (l : List Nat), mapIntTokens parts = some l →
      ∀ p ∈ parts, ∃ v, pyInt p = some v := by
  intro parts
  induction parts with
  | nil => intro l _ p hp; cases hp
  | cons q t ih =>
    intro l h p hp
    simp only [mapIntTokens] at h
    rcases hq : pyInt q with - | v
    · rw [hq] at h; cases h
    · rw [hq] at h
      rcases ht : mapIntTokens t with - | vs
      · rw [ht] at h; cases h
      · rcases List.mem_cons.mp hp with rfl | hp2
        · exact ⟨v, hq⟩
        · exact ih vs ht p hp2

/-- C8 (amended): the collaborator's comma-only parser accepts a strict
subset of the strings the solver's parser accepts — every string
`parse_clue_text` parses is parsed by `parse_clue_line` to the same ordered
sequence.  The converse fails: whitespace-separated tokens such as
`"1 2"` parse only in `parse_clue_line` (see the counterexample). -/
theorem C8_text_subset_line (s : List Char) (l : List Nat)
    (h : parse_clue_text s = some l) : parse_clue_line s = some l := by
  rw [parse_clue_text] at h
  rw [parse_clue_line]
  by_cases hstrip : (pstrip s).isEmpty = true
  · rw [if_pos hstrip] at h ⊢
    exact h
  · rw [if_neg hstrip] at h ⊢
    have hdig : ∀ p ∈ keptParts (pstrip s), p.all Char.isDigit = true := by
      intro p hp
      obtain ⟨v, hv⟩ := mapIntTokens_some _ l h p hp
      exact (pyInt_some p v hv).2
    rw [wsplit, wsplitAux_replaceComma (pstrip s) [],
      tokAux_eq_keptParts (pstrip s).length (pstrip s) (le_refl _) hdig]
    exact h

/-- C8 witness: the comma-separated string `"1, 2"` parses identically in
both parsers. -/
theorem C8_witness :
    parse_clue_text ['1', ',', ' ', '2'] = some [1, 2] ∧
    parse_clue_line ['1', ',', ' ', '2'] = some [1, 2] :=
  ⟨by decide, C8_text_subset_line ['1', ',', ' ', '2'] [1, 2] (by decide)⟩

end Nono
